import Mathlib

/-!
Verification of the text-chunking and vector-store pipeline in
`src/2_AWS_Vector_Store/main.py`.

The Python functions are shallowly embedded as executable Lean definitions:
strings become `List Char` / `String`, Python floats in similarity arithmetic
become `ℚ`, fallible operations return `Except`/`Option`, and the vector-store
client is modelled as an explicit record of operations over an abstract state.
-/

namespace AwsVectorStore

/- ===================== Text Normalizer (`clean_text`) ===================== -/

/-- Python's `\s` class, restricted to the ASCII whitespace characters
(space, tab, newline, carriage return, vertical tab, form feed). -/
def isPySpace (c : Char) : Bool :=
  c = ' ' || c = '\t' || c = '\n' || c = '\x0d' || c = '\x0b' || c = '\x0c'

/-- The character class `[a-zA-Z0-9_]` used for JSON-like keys in the
`clean_text` regex. -/
def isWordChar (c : Char) : Bool :=
  c.isAlphanum || c = '_'

/-- Alternative `<[^>]+>` of the `clean_text` regex, applied after an opening
`<` has been seen.  Returns the number of characters of `rest` consumed
(body plus closing `>`), or `none` when the alternative does not match. -/
def matchHtml (rest : List Char) : Option Nat :=
  let body := rest.takeWhile (fun x => x != '>')
  match rest.drop body.length with
  | '>' :: _ => if body.isEmpty then none else some (body.length + 1)
  | _ => none

/-- Alternative `\"[a-zA-Z0-9_]+\"\s*:\s*\"(.*?)\"` of the `clean_text` regex,
applied after the opening `"` has been seen.  Returns the captured group
(the value between the final pair of quotes; `.` does not match a newline)
together with the number of characters of `rest` consumed. -/
def matchJson (rest : List Char) : Option (List Char × Nat) :=
  if (rest.takeWhile isWordChar).isEmpty then none else
  match rest.drop (rest.takeWhile isWordChar).length with
  | '"' :: r3 =>
    match r3.drop ((r3.takeWhile isPySpace).length) with
    | ':' :: r5 =>
      match r5.drop ((r5.takeWhile isPySpace).length) with
      | '"' :: r7 =>
        match r7.drop ((r7.takeWhile (fun x => x != '"' && x != '\n')).length) with
        | '"' :: _ =>
          some (r7.takeWhile (fun x => x != '"' && x != '\n'),
            (rest.takeWhile isWordChar).length + 1 + (r3.takeWhile isPySpace).length + 1 +
              (r5.takeWhile isPySpace).length + 1 +
              (r7.takeWhile (fun x => x != '"' && x != '\n')).length + 1)
        | _ => none
      | _ => none
    | _ => none
  | _ => none

/-- One attempt of the combined `clean_text` pattern at the current position,
with `c` the character at the position and `rest` the remainder.  The
alternatives are tried in the order they appear in the Python regex; the
result is the replacement text (the captured value if nonempty, a single
space otherwise, exactly as the substitution lambda computes it) and the
number of characters of `rest` consumed in addition to `c`.  `none` means no
alternative matches at this position (which happens exactly when `c` is
alphanumeric or whitespace). -/
def matchPattern (c : Char) (rest : List Char) : Option (List Char × Nat) :=
  if c = '<' then
    match matchHtml rest with
    | some n => some ([' '], n)
    | none => some ([' '], 0)
  else if c = '"' then
    match matchJson rest with
    | some (val, n) => some ((if val.isEmpty then [' '] else val), n)
    | none => some ([' '], 0)
  else if c = '\\' then
    match rest with
    | x :: _ => if x = 'n' || x = 'r' || x = 't' then some ([' '], 1) else some ([' '], 0)
    | [] => some ([' '], 0)
  else if c.isAlphanum || isPySpace c then none
  else some ([' '], 0)

/-- The first `re.sub` of `clean_text`: scan left to right, replacing each
(leftmost, non-overlapping) match of the combined pattern by the result of
the substitution lambda.  `fuel` bounds the recursion; `fuel = length` always
suffices because every step consumes at least one character. -/
def subCleanFuel : Nat → List Char → List Char
  | 0, _ => []
  | _ + 1, [] => []
  | fuel + 1, c :: rest =>
    match matchPattern c rest with
    | some (rep, n) => rep ++ subCleanFuel fuel (rest.drop n)
    | none => c :: subCleanFuel fuel rest

/-- The first `re.sub` of `clean_text` on a whole character list. -/
def subClean (l : List Char) : List Char :=
  subCleanFuel l.length l

/-- The second pass `re.sub(r'\s+', ' ', text)`: every maximal whitespace run
is replaced by a single space.  The Boolean argument records whether the
scanner is currently inside a whitespace run. -/
def collapseAux : Bool → List Char → List Char
  | _, [] => []
  | inRun, c :: rest =>
    if isPySpace c then
      if inRun then collapseAux true rest
      else ' ' :: collapseAux true rest
    else c :: collapseAux false rest

/-- `re.sub(r'\s+', ' ', text)`. -/
def collapseWs (l : List Char) : List Char :=
  collapseAux false l

/-- Python's `str.strip()`: remove leading and trailing whitespace. -/
def pyStrip (l : List Char) : List Char :=
  (((l.dropWhile isPySpace).reverse.dropWhile isPySpace)).reverse

/-- `clean_text` from `src/2_AWS_Vector_Store/main.py`, on string input:
one combined regex substitution followed by whitespace collapsing and
stripping. -/
def clean_text (s : String) : String :=
  String.mk (pyStrip (collapseWs (subClean s.data)))

/-- The possible inputs probed by the spec's edge cases: a `str`, or Python's
`None`. -/
inductive PyInput where
  | str (s : String) : PyInput
  | noneV : PyInput

/-- The coercion at the top of `clean_text`: `if not isinstance(text, str):
text = str(text)`.  Python renders `None` as the string `"None"`. -/
def coerceStr : PyInput → String
  | .str s => s
  | .noneV => "None"

/-- `clean_text` including the initial coercion of non-string input. -/
def clean_text_py (v : PyInput) : String :=
  clean_text (coerceStr v)

/- ===================== Chunker (`create_chunks`) ===================== -/

/-- The error raised when the chunking configuration is invalid. -/
inductive ChunkError where
  | configurationError : ChunkError
deriving DecidableEq

/-- Modelled from the spec: the chunking loop of the Chunker.
`create_chunks` delegates to `RecursiveCharacterTextSplitter` from the
`langchain_text_splitters` package, an external dependency whose source is
not part of this repository, so the splitter is modelled from the spec's
words: each chunk has at most `S` characters, the next chunk begins `O`
characters before the end of the previous one (stride `S - O`), and a text
of length at most `S` is returned as a single chunk.  `fuel` bounds the
recursion; `length + 1` always suffices when `O < S`. -/
def chunkFrom : Nat → List Char → Nat → Nat → List (List Char)
  | 0, _, _, _ => []
  | fuel + 1, l, S, O =>
    if l.length ≤ S then [l]
    else l.take S :: chunkFrom fuel (l.drop (S - O)) S O

/-- Modelled from the spec: `create_chunks(text, chunk_size, chunk_overlap)`.
Per the spec it fails with a `ConfigurationError` when the overlap is not
smaller than the chunk size, and otherwise produces the ordered chunk list. -/
def create_chunks (text : List Char) (S O : Nat) : Except ChunkError (List (List Char)) :=
  if S ≤ O then .error .configurationError
  else .ok (chunkFrom (text.length + 1) text S O)

/- ============== Vector Index Manager (`create_index_if_needed`) ============== -/

/-- One entry of the `list_indexes` response: the fields consulted by
`create_index_if_needed` (`indexName`, and `dimension` read with `.get`,
hence possibly absent). -/
structure IndexInfo where
  indexName : String
  dimension : Option Nat
deriving DecidableEq

/-- The backend calls `create_index_if_needed` can issue. -/
inductive Call where
  | list : Call
  | delete : String → Call
  | create : String → Nat → Call
deriving DecidableEq

/-- The vector-store client, modelled as explicit state-passing operations
over an abstract backend state `σ`; each operation returns the new state and
either a normal result or a raised error of type `E`. -/
structure ClientM (σ : Type) (E : Type) where
  listIndexes : σ → σ × Except E (List IndexInfo)
  deleteIndex : σ → String → σ × Except E Unit
  createIndex : σ → String → Nat → σ × Except E Unit

/-- The dict comprehension `{idx['indexName']: idx for idx in ...}` followed
by the lookup of `index_name`: later duplicates overwrite earlier ones, so
this returns the last entry with the given name. -/
def lookupDict (idxs : List IndexInfo) (name : String) : Option IndexInfo :=
  idxs.foldl (fun acc i => if i.indexName = name then some i else acc) none

/-- The body of `create_index_if_needed` without the outer `try/except`:
list the indexes, and if the target name is absent or its dimension differs,
delete it when present (its failure is swallowed by the inner bare
`except: pass`) and create it.  Returns the final backend state, the trace
of calls issued, and `some e` when an unhandled exception `e` is escaping. -/
def create_index_run {σ E : Type} (cl : ClientM σ E) (s : σ) (indexName : String)
    (dimension : Nat) : σ × List Call × Option E :=
  match cl.listIndexes s with
  | (s1, .error e) => (s1, [Call.list], some e)
  | (s1, .ok idxs) =>
    match lookupDict idxs indexName with
    | none =>
      match cl.createIndex s1 indexName dimension with
      | (s2, .error e) => (s2, [Call.list, Call.create indexName dimension], some e)
      | (s2, .ok _) => (s2, [Call.list, Call.create indexName dimension], none)
    | some info =>
      if info.dimension = some dimension then (s1, [Call.list], none)
      else
        let s2 := (cl.deleteIndex s1 indexName).1
        match cl.createIndex s2 indexName dimension with
        | (s3, .error e) =>
          (s3, [Call.list, Call.delete indexName, Call.create indexName dimension], some e)
        | (s3, .ok _) =>
          (s3, [Call.list, Call.delete indexName, Call.create indexName dimension], none)

/-- `create_index_if_needed` from `src/2_AWS_Vector_Store/main.py`: the body
above wrapped in the outer `try: ... except: pass`, which turns any escaping
exception into a normal return. -/
def create_index_if_needed {σ E : Type} (cl : ClientM σ E) (s : σ) (indexName : String)
    (dimension : Nat) : σ × List Call × Option E :=
  let r := create_index_run cl s indexName dimension
  (r.1, r.2.1, none)

/-- An idealized vector-store backend used to observe `create_index_if_needed`
across several calls: the state is the list of existing indexes; `list`
returns it, `delete` removes the named index, `create` appends a new one.
All backend operations succeed. -/
def idealClient : ClientM (List IndexInfo) String where
  listIndexes := fun s => (s, .ok s)
  deleteIndex := fun s n => (s.filter (fun i => i.indexName != n), .ok ())
  createIndex := fun s n d => (s ++ [⟨n, some d⟩], .ok ())

/- ===================== Vector Upload (`upload_vectors`) ===================== -/

/-- The base-10 digits of `n`, least significant first, computed with
explicit fuel so that it reduces in the kernel; `fuel = n` always suffices. -/
def natDigitsFuel : Nat → Nat → List Nat
  | 0, _ => []
  | fuel + 1, n => if n = 0 then [] else (n % 10) :: natDigitsFuel fuel (n / 10)

/-- The decimal digit characters of `n`, most significant first; Python
renders `0` as `"0"`. -/
def natDecChars (n : Nat) : List Char :=
  if n = 0 then ['0'] else ((natDigitsFuel n n).map Nat.digitChar).reverse

/-- The record key `f"chunk_{i}_{abs(hash(chunk)) % 100000}"` built by
`upload_vectors`, with `hm` the bounded content hash: the characters
`chunk_`, the decimal rendering of `i`, an underscore, and the decimal
rendering of `hm`. -/
def mkKey (i hm : Nat) : String :=
  String.mk ('c' :: 'h' :: 'u' :: 'n' :: 'k' :: '_' :: (natDecChars i ++ '_' :: natDecChars hm))

/-- One vector record as assembled by `upload_vectors`: key, embedding data,
and the metadata fields (full chunk text and chunk index). -/
structure VectorRecord where
  key : String
  data : List ℚ
  text : String
  chunk_index : Nat
deriving DecidableEq

/-- The list comprehension of `upload_vectors`: zip chunks with embeddings
(truncating at the shorter list, as Python's `zip` does), enumerate, and
build one record per pair.  Python's built-in `hash` on strings is
platform- and seed-dependent, so it is passed in as an arbitrary function. -/
def makeVectors (hash : String → Int) (chunks : List String) (embs : List (List ℚ)) :
    List VectorRecord :=
  (chunks.zip embs).enum.map fun p =>
    { key := mkKey p.1 ((hash p.2.1).natAbs % 100000)
      data := p.2.2
      text := p.2.1
      chunk_index := p.1 }

/-- The batching loop `for i in range(0, len(vectors), batch_size):
vectors[i:i+batch_size]`.  `fuel` bounds the recursion; `length` always
suffices when `bs ≥ 1`. -/
def sliceBatches {α : Type} : Nat → List α → Nat → List (List α)
  | 0, _, _ => []
  | fuel + 1, l, bs =>
    if l.isEmpty then [] else l.take bs :: sliceBatches fuel (l.drop bs) bs

/-- The batch sizes produced by the batching loop, as a function of the
number of records alone. -/
def lengthsPlanFuel : Nat → Nat → Nat → List Nat
  | 0, _, _ => []
  | fuel + 1, n, bs => if n = 0 then [] else min bs n :: lengthsPlanFuel fuel (n - bs) bs

/-- `upload_vectors` from `src/2_AWS_Vector_Store/main.py`, observed through
the sequence of `put_vectors` calls it issues: early return on an empty
chunk or embedding list, otherwise one write call per batch of at most 400
records, in input order. -/
def upload_vectors (hash : String → Int) (chunks : List String) (embs : List (List ℚ)) :
    List (List VectorRecord) :=
  if chunks.isEmpty || embs.isEmpty then []
  else
    let vectors := makeVectors hash chunks embs
    sliceBatches vectors.length vectors 400

/- ===================== Vector Search (`search`) ===================== -/

/-- The metadata dict of one query match, fields read with `.get` and hence
possibly absent. -/
structure MatchMeta where
  text : Option String
  chunk_index : Option Int
deriving DecidableEq

/-- One entry of the `query_vectors` response, with the fields `search`
reads via `.get` (distances are Python floats, modelled as rationals). -/
structure MatchRec where
  metadata : Option MatchMeta
  distance : Option ℚ
  key : Option String
deriving DecidableEq

/-- One result dict built by `search`. -/
structure SearchResult where
  text : String
  similarity : ℚ
  id : String
  chunk_index : Int
deriving DecidableEq

/-- The per-match body of the `search` loop: default the metadata to `{}`
and the distance to `1.0`, and report `similarity = max(0.0, 1.0 - distance)`
together with the stored text, key and chunk index (with their defaults). -/
def processMatch (m : MatchRec) : SearchResult :=
  let md := m.metadata.getD ⟨none, none⟩
  let d := m.distance.getD 1
  { text := md.text.getD ""
    similarity := max 0 (1 - d)
    id := m.key.getD ""
    chunk_index := md.chunk_index.getD (-1) }

/-- `search` from `src/2_AWS_Vector_Store/main.py`, with the backend's
response to the single `query_vectors` call passed in explicitly: an empty
query embedding short-circuits to `[]`, a backend error is wrapped into a
`RuntimeError`, and otherwise every returned match is mapped to a result. -/
def search (queryEmbedding : List ℚ) (response : Except String (List MatchRec)) :
    Except String (List SearchResult) :=
  if queryEmbedding.isEmpty then .ok []
  else
    match response with
    | .error e => .error ("Search failed: " ++ e)
    | .ok ms => .ok (ms.map processMatch)

/-- A client whose `create_index` call always fails while `list_indexes` and
`delete_index` succeed, used to observe how `create_index_if_needed` treats a
create failure. -/
def createFailClient : ClientM Unit String where
  listIndexes := fun _ => ((), .ok [])
  deleteIndex := fun _ _ => ((), .ok ())
  createIndex := fun _ _ _ => ((), .error "create failed")

/- ===================== Helper lemmas ===================== -/

theorem lookupDict_append_self (l : List IndexInfo) (n : String) (info : IndexInfo)
    (h : info.indexName = n) : lookupDict (l ++ [info]) n = some info := by
  simp [lookupDict, List.foldl_append, h]

theorem natDigitsFuel_eq_digits : ∀ (fuel n : Nat), n ≤ fuel →
    natDigitsFuel fuel n = Nat.digits 10 n := by
  intro fuel
  induction fuel with
  | zero =>
    intro n hn
    have : n = 0 := Nat.le_zero.mp hn
    subst this
    simp [natDigitsFuel]
  | succ f ih =>
    intro n hn
    by_cases h0 : n = 0
    · subst h0
      simp [natDigitsFuel]
    · rw [natDigitsFuel, if_neg h0, Nat.digits_def' (by norm_num : 1 < 10) (Nat.pos_of_ne_zero h0)]
      rw [ih (n / 10)
        (by have := Nat.div_lt_self (Nat.pos_of_ne_zero h0) (by norm_num : 1 < 10); omega)]

theorem digitChar_inj10 : ∀ a < 10, ∀ b < 10, Nat.digitChar a = Nat.digitChar b → a = b := by
  decide

theorem digitChar_ne_underscore : ∀ a < 10, Nat.digitChar a ≠ '_' := by
  decide

theorem map_digitChar_inj : ∀ (l₁ l₂ : List Nat), (∀ x ∈ l₁, x < 10) → (∀ x ∈ l₂, x < 10) →
    l₁.map Nat.digitChar = l₂.map Nat.digitChar → l₁ = l₂ := by
  intro l₁
  induction l₁ with
  | nil =>
    intro l₂ _ _ h
    cases l₂ with
    | nil => rfl
    | cons b u => simp at h
  | cons a t ih =>
    intro l₂ h₁ h₂ h
    cases l₂ with
    | nil => simp at h
    | cons b u =>
      simp only [List.map_cons, List.cons.injEq] at h
      have hab : a = b :=
        digitChar_inj10 a (h₁ a (by simp)) b (h₂ b (by simp)) h.1
      have htu : t = u :=
        ih u (fun x hx => h₁ x (by simp [hx])) (fun x hx => h₂ x (by simp [hx])) h.2
      rw [hab, htu]

theorem natDecChars_eq_digits (n : Nat) :
    natDecChars n = if n = 0 then ['0'] else ((Nat.digits 10 n).map Nat.digitChar).reverse := by
  rw [natDecChars, natDigitsFuel_eq_digits n n (le_refl n)]

theorem natDecChars_ne_underscore (n : Nat) : ∀ ch ∈ natDecChars n, ch ≠ '_' := by
  intro ch hch
  rw [natDecChars_eq_digits] at hch
  by_cases h0 : n = 0
  · rw [if_pos h0] at hch
    simp at hch
    subst hch
    decide
  · rw [if_neg h0] at hch
    rw [List.mem_reverse] at hch
    obtain ⟨d, hd, rfl⟩ := List.mem_map.mp hch
    exact digitChar_ne_underscore d (Nat.digits_lt_base (by norm_num) hd)

theorem natDecChars_inj : ∀ {m n : Nat}, natDecChars m = natDecChars n → m = n := by
  intro m n h
  rw [natDecChars_eq_digits, natDecChars_eq_digits] at h
  by_cases hm : m = 0 <;> by_cases hn : n = 0
  · rw [hm, hn]
  · exfalso
    rw [if_pos hm, if_neg hn] at h
    have h2 : (Nat.digits 10 n).map Nat.digitChar = ['0'] := by
      have := congrArg List.reverse h
      simpa using this.symm
    obtain ⟨d, hd1, hd2⟩ : ∃ d, Nat.digits 10 n = [d] ∧ Nat.digitChar d = '0' := by
      cases hdig : Nat.digits 10 n with
      | nil => rw [hdig] at h2; simp at h2
      | cons x u =>
        rw [hdig] at h2
        cases u with
        | nil => exact ⟨x, rfl, by simpa using h2⟩
        | cons y v => simp at h2
    have hd10 : d < 10 := Nat.digits_lt_base (by norm_num) (by rw [hd1]; simp)
    have hd0 : d = 0 := digitChar_inj10 d hd10 0 (by norm_num) (by rw [hd2]; rfl)
    have : n = 0 := by
      have := Nat.ofDigits_digits 10 n
      rw [hd1, hd0] at this
      simpa [Nat.ofDigits] using this.symm
    exact hn this
  · exfalso
    rw [if_neg hm, if_pos hn] at h
    have h2 : (Nat.digits 10 m).map Nat.digitChar = ['0'] := by
      have := congrArg List.reverse h
      simpa using this
    obtain ⟨d, hd1, hd2⟩ : ∃ d, Nat.digits 10 m = [d] ∧ Nat.digitChar d = '0' := by
      cases hdig : Nat.digits 10 m with
      | nil => rw [hdig] at h2; simp at h2
      | cons x u =>
        rw [hdig] at h2
        cases u with
        | nil => exact ⟨x, rfl, by simpa using h2⟩
        | cons y v => simp at h2
    have hd10 : d < 10 := Nat.digits_lt_base (by norm_num) (by rw [hd1]; simp)
    have hd0 : d = 0 := digitChar_inj10 d hd10 0 (by norm_num) (by rw [hd2]; rfl)
    have : m = 0 := by
      have := Nat.ofDigits_digits 10 m
      rw [hd1, hd0] at this
      simpa [Nat.ofDigits] using this.symm
    exact hm this
  · rw [if_neg hm, if_neg hn] at h
    have h2 := List.reverse_injective h
    have h3 : Nat.digits 10 m = Nat.digits 10 n :=
      map_digitChar_inj _ _ (fun x hx => Nat.digits_lt_base (by norm_num) hx)
        (fun x hx => Nat.digits_lt_base (by norm_num) hx) h2
    have := congrArg (Nat.ofDigits 10) h3
    rwa [Nat.ofDigits_digits, Nat.ofDigits_digits] at this

theorem append_underscore_inj : ∀ (xs ys xs' ys' : List Char),
    (∀ ch ∈ xs, ch ≠ '_') → (∀ ch ∈ xs', ch ≠ '_') →
    xs ++ '_' :: ys = xs' ++ '_' :: ys' → xs = xs' := by
  intro xs
  induction xs with
  | nil =>
    intro ys xs' ys' _ hx' h
    cases xs' with
    | nil => rfl
    | cons a t =>
      exfalso
      simp only [List.nil_append, List.cons_append, List.cons.injEq] at h
      exact hx' a (by simp) h.1.symm
  | cons a t ih =>
    intro ys xs' ys' hx hx' h
    cases xs' with
    | nil =>
      exfalso
      simp only [List.nil_append, List.cons_append, List.cons.injEq] at h
      exact hx a (by simp) h.1
    | cons a' t' =>
      simp only [List.cons_append, List.cons.injEq] at h
      have ht : t = t' :=
        ih ys t' ys' (fun ch hc => hx ch (by simp [hc])) (fun ch hc => hx' ch (by simp [hc])) h.2
      rw [h.1, ht]

theorem mkKey_inj_left : ∀ {i a j b : Nat}, mkKey i a = mkKey j b → i = j := by
  intro i a j b h
  have hdata := congrArg String.data h
  simp only [mkKey, List.cons.injEq, true_and] at hdata
  exact natDecChars_inj
    (append_underscore_inj _ _ _ _ (natDecChars_ne_underscore i) (natDecChars_ne_underscore j)
      hdata)

theorem rep_space_case {rest rep : List Char} {n k : Nat} {ch : Char}
    (h : (some ([' '], k) : Option (List Char × Nat)) = some (rep, n)) (hch : ch ∈ rep) :
    ch = ' ' ∨ ch ∈ rest := by
  have h1 : ([' '], k) = (rep, n) := Option.some.inj h
  have h2 : [' '] = rep := ((Prod.mk.injEq _ _ _ _).mp h1).1
  rw [← h2] at hch
  left
  simpa using hch

theorem matchJson_val_sub (rest val : List Char) (n : Nat)
    (h : matchJson rest = some (val, n)) : ∀ ch ∈ val, ch ∈ rest := by
  intro ch hch
  unfold matchJson at h
  split at h
  · exact absurd h (by simp)
  · split at h
    · rename_i r3 heq1
      split at h
      · rename_i r5 heq2
        split at h
        · rename_i r7 heq3
          split at h
          · rename_i r9 heq4
            have hval : val = r7.takeWhile (fun x => x != '"' && x != '\n') := by
              have h1 := Option.some.inj h
              exact ((Prod.mk.injEq _ _ _ _).mp h1).1.symm
            have h7 : ch ∈ r7 := List.takeWhile_subset _ (hval ▸ hch)
            have h5 : ch ∈ r5.drop ((r5.takeWhile isPySpace).length) := by
              rw [heq3]
              exact List.mem_cons_of_mem _ h7
            have h5' : ch ∈ r5 := List.drop_subset _ _ h5
            have h3 : ch ∈ r3.drop ((r3.takeWhile isPySpace).length) := by
              rw [heq2]
              exact List.mem_cons_of_mem _ h5'
            have h3' : ch ∈ r3 := List.drop_subset _ _ h3
            have hr : ch ∈ rest.drop ((rest.takeWhile isWordChar).length) := by
              rw [heq1]
              exact List.mem_cons_of_mem _ h3'
            exact List.drop_subset _ _ hr
          · exact absurd h (by simp)
        · exact absurd h (by simp)
      · exact absurd h (by simp)
    · exact absurd h (by simp)

theorem matchPattern_rep_sub (c : Char) (rest rep : List Char) (n : Nat)
    (h : matchPattern c rest = some (rep, n)) : ∀ ch ∈ rep, ch = ' ' ∨ ch ∈ rest := by
  intro ch hch
  unfold matchPattern at h
  split at h
  · split at h
    · exact rep_space_case h hch
    · exact rep_space_case h hch
  · split at h
    · split at h
      · rename_i val m heq
        split at h
        · exact rep_space_case h hch
        · have hval : val = rep := by
            have h1 := Option.some.inj h
            exact ((Prod.mk.injEq _ _ _ _).mp h1).1
          rw [← hval] at hch
          exact Or.inr (matchJson_val_sub rest val m heq ch hch)
      · exact rep_space_case h hch
    · split at h
      · split at h
        · split at h
          · exact rep_space_case h hch
          · exact rep_space_case h hch
        · exact rep_space_case h hch
      · split at h
        · exact absurd h (by simp)
        · exact rep_space_case h hch

theorem subCleanFuel_sub : ∀ (f : Nat) (l : List Char), ∀ ch ∈ subCleanFuel f l,
    ch = ' ' ∨ ch ∈ l := by
  intro f
  induction f with
  | zero => intro l ch hch; simp [subCleanFuel] at hch
  | succ n ih =>
    intro l ch hch
    cases l with
    | nil => simp [subCleanFuel] at hch
    | cons c rest =>
      rw [subCleanFuel] at hch
      cases hm : matchPattern c rest with
      | none =>
        rw [hm] at hch
        rcases List.mem_cons.mp hch with rfl | hch
        · exact Or.inr (List.mem_cons_self _ _)
        · rcases ih rest ch hch with h | h
          · exact Or.inl h
          · exact Or.inr (List.mem_cons_of_mem _ h)
      | some r =>
        rw [hm] at hch
        rcases List.mem_append.mp hch with hch | hch
        · rcases matchPattern_rep_sub c rest r.1 r.2 (by rw [hm]) ch hch with h | h
          · exact Or.inl h
          · exact Or.inr (List.mem_cons_of_mem _ h)
        · rcases ih (rest.drop r.2) ch hch with h | h
          · exact Or.inl h
          · exact Or.inr (List.mem_cons_of_mem _ (List.drop_subset _ _ h))

theorem collapseAux_sub : ∀ (l : List Char) (b : Bool), ∀ ch ∈ collapseAux b l,
    ch = ' ' ∨ ch ∈ l := by
  intro l
  induction l with
  | nil => intro b ch hch; simp [collapseAux] at hch
  | cons c rest ih =>
    intro b ch hch
    rw [collapseAux] at hch
    by_cases hc : isPySpace c
    · rw [if_pos hc] at hch
      by_cases hb : b
      · subst hb
        rcases ih true ch (by simpa using hch) with h | h
        · exact Or.inl h
        · exact Or.inr (List.mem_cons_of_mem _ h)
      · simp only [Bool.not_eq_true] at hb
        subst hb
        simp only [Bool.false_eq_true, if_false] at hch
        rcases List.mem_cons.mp hch with rfl | hch
        · exact Or.inl rfl
        · rcases ih true ch hch with h | h
          · exact Or.inl h
          · exact Or.inr (List.mem_cons_of_mem _ h)
    · rw [if_neg hc] at hch
      rcases List.mem_cons.mp hch with rfl | hch
      · exact Or.inr (List.mem_cons_self _ _)
      · rcases ih false ch hch with h | h
        · exact Or.inl h
        · exact Or.inr (List.mem_cons_of_mem _ h)

theorem pyStrip_sub (l : List Char) : ∀ ch ∈ pyStrip l, ch ∈ l := by
  intro ch hch
  rw [pyStrip, List.mem_reverse] at hch
  have h1 := List.dropWhile_subset isPySpace hch
  rw [List.mem_reverse] at h1
  exact List.dropWhile_subset isPySpace h1

theorem dropWhile_head_not (p : Char → Bool) (l : List Char) (ch : Char)
    (h : (l.dropWhile p).head? = some ch) : p ch = false := by
  have h2 := List.head?_dropWhile_not p l
  rw [h] at h2
  exact h2

theorem getLast?_dropWhile_of_ne_nil (p : Char → Bool) :
    ∀ l : List Char, l.dropWhile p ≠ [] → (l.dropWhile p).getLast? = l.getLast? := by
  intro l
  induction l with
  | nil => intro h; simp [List.dropWhile] at h
  | cons a t ih =>
    intro h
    rw [List.dropWhile_cons] at h ⊢
    by_cases hp : p a
    · rw [if_pos (by simpa using hp)] at h ⊢
      have htne : t ≠ [] := by
        intro he
        rw [he] at h
        simp [List.dropWhile] at h
      cases t with
      | nil => exact absurd rfl htne
      | cons b u => rw [ih h, List.getLast?_cons_cons]
    · rw [if_neg (by simpa using hp)]

theorem collapseAux_true_head : ∀ (l : List Char) (ch : Char),
    (collapseAux true l).head? = some ch → isPySpace ch = false := by
  intro l
  induction l with
  | nil => intro ch h; simp [collapseAux] at h
  | cons c rest ih =>
    intro ch h
    rw [collapseAux] at h
    by_cases hc : isPySpace c
    · rw [if_pos hc, if_pos rfl] at h
      exact ih ch h
    · rw [if_neg hc] at h
      simp only [List.head?_cons, Option.some.injEq] at h
      subst h
      simpa using hc

theorem collapseAux_chain : ∀ (l : List Char) (b : Bool),
    List.Chain' (fun a c => ¬(a = ' ' ∧ c = ' ')) (collapseAux b l) := by
  intro l
  induction l with
  | nil => intro b; simp [collapseAux]
  | cons c rest ih =>
    intro b
    rw [collapseAux]
    by_cases hc : isPySpace c
    · rw [if_pos hc]
      by_cases hb : b
      · subst hb
        simpa using ih true
      · simp only [Bool.not_eq_true] at hb
        subst hb
        simp only [Bool.false_eq_true, if_false]
        rw [List.chain'_cons']
        refine ⟨?_, ih true⟩
        intro y hy
        have : isPySpace y = false := collapseAux_true_head rest y hy
        intro hcon
        rw [hcon.2] at this
        simp [isPySpace] at this
    · rw [if_neg hc]
      rw [List.chain'_cons']
      refine ⟨?_, ih false⟩
      intro y _
      intro hcon
      rw [hcon.1] at hc
      simp [isPySpace] at hc

theorem sliceBatches_succ {α : Type} (f : Nat) (l : List α) (bs : Nat) :
    sliceBatches (f + 1) l bs =
      if l.isEmpty then [] else l.take bs :: sliceBatches f (l.drop bs) bs := rfl

theorem sliceBatches_join {α : Type} : ∀ (f : Nat) (l : List α) (bs : Nat),
    0 < bs → l.length ≤ f → (sliceBatches f l bs).flatten = l := by
  intro f
  induction f with
  | zero =>
    intro l bs _ hl
    have : l = [] := List.length_eq_zero.mp (Nat.le_zero.mp hl)
    subst this
    rfl
  | succ n ih =>
    intro l bs hbs hl
    rw [sliceBatches_succ]
    by_cases he : l.isEmpty
    · rw [if_pos he]
      rw [List.isEmpty_iff] at he
      rw [he]
      rfl
    · rw [if_neg he, List.flatten_cons,
        ih (l.drop bs) bs hbs (by rw [List.length_drop]; omega)]
      exact List.take_append_drop bs l

theorem sliceBatches_mem {α : Type} : ∀ (f : Nat) (l : List α) (bs : Nat) (b : List α),
    0 < bs → b ∈ sliceBatches f l bs → b.length ≤ bs ∧ b ≠ [] := by
  intro f
  induction f with
  | zero =>
    intro l bs b _ hb
    simp [sliceBatches] at hb
  | succ n ih =>
    intro l bs b hbs hb
    rw [sliceBatches_succ] at hb
    by_cases he : l.isEmpty
    · rw [if_pos he] at hb
      simp at hb
    · rw [if_neg he] at hb
      rcases List.mem_cons.mp hb with rfl | hb
      · refine ⟨by simp, ?_⟩
        rw [List.isEmpty_iff] at he
        intro hnil
        rcases List.take_eq_nil_iff.mp hnil with h | h
        · omega
        · exact he h
      · exact ih _ _ _ hbs hb

theorem sliceBatches_map_length {α : Type} : ∀ (f : Nat) (l : List α) (bs : Nat),
    (sliceBatches f l bs).map List.length = lengthsPlanFuel f l.length bs := by
  intro f
  induction f with
  | zero => intro l bs; rfl
  | succ n ih =>
    intro l bs
    rw [sliceBatches_succ, lengthsPlanFuel]
    by_cases he : l.isEmpty
    · rw [if_pos he, if_pos (by rwa [List.isEmpty_iff, ← List.length_eq_zero] at he)]
      rfl
    · rw [if_neg he,
        if_neg (by rwa [List.isEmpty_iff, ← List.length_eq_zero] at he)]
      simp only [List.map_cons, ih, List.length_take, List.length_drop]

theorem makeVectors_length (h : String → Int) (c : List String) (e : List (List ℚ)) :
    (makeVectors h c e).length = min c.length e.length := by
  simp [makeVectors]

theorem upload_vectors_join (h : String → Int) (c : List String) (e : List (List ℚ)) :
    (upload_vectors h c e).flatten = makeVectors h c e := by
  rw [upload_vectors]
  by_cases hc : c.isEmpty || e.isEmpty
  · rw [if_pos hc]
    rcases Bool.or_eq_true_iff.mp hc with h1 | h1 <;> rw [List.isEmpty_iff] at h1 <;>
      simp [makeVectors, h1]
  · rw [if_neg hc]
    exact sliceBatches_join _ _ _ (by norm_num) (le_refl _)

/- ===================== Claims: Chunker ===================== -/

/-- C2: for every chunk size `S` and overlap `O` with `O ≥ S` the Chunker
fails with a `ConfigurationError`, and for `O < S` it does not fail. -/
theorem create_chunks_overlap_check (text : List Char) (S O : Nat) :
    (S ≤ O → create_chunks text S O = .error .configurationError) ∧
    (O < S → ∃ cs, create_chunks text S O = .ok cs) := by
  constructor
  · intro h
    rw [create_chunks, if_pos h]
  · intro h
    exact ⟨_, by rw [create_chunks, if_neg (by omega)]⟩

/-- Witness for C2 at `S = 100`, `O = 100` (failure) and `S = 500`, `O = 100`
(success). -/
theorem create_chunks_overlap_check_witness :
    create_chunks "x".data 100 100 = .error .configurationError ∧
    ∃ cs, create_chunks "x".data 500 100 = .ok cs :=
  ⟨(create_chunks_overlap_check "x".data 100 100).1 (by decide),
   (create_chunks_overlap_check "x".data 500 100).2 (by decide)⟩

/-- C8: for every text of length at most the chunk size (with a valid
overlap), the Chunker returns exactly one chunk equal to the input. -/
theorem create_chunks_short_text (text : List Char) (S O : Nat) (hO : O < S)
    (hL : text.length ≤ S) : create_chunks text S O = .ok [text] := by
  rw [create_chunks, if_neg (by omega), chunkFrom, if_pos hL]

/-- Witness for C8: an 11-character text with the default `S = 500`,
`O = 100` is returned as the single chunk. -/
theorem create_chunks_short_text_witness :
    create_chunks "hello world".data 500 100 = .ok ["hello world".data] :=
  create_chunks_short_text "hello world".data 500 100 (by decide) (by decide)

/- ===================== Claims: Normalizer edge cases (C7) ===================== -/

/-- C7 counterexample: the `None` input is coerced by `str(None)` to the
string `"None"`, so the Normalizer returns `"None"`, not the empty string. -/
theorem clean_text_none_counterexample :
    clean_text_py PyInput.noneV = "None" ∧ clean_text_py PyInput.noneV ≠ "" := by
  decide

/-- C7 amended: the empty-string input yields the empty string, and the
`None` input is coerced to its textual representation and yields `"None"`;
neither raises (the embedding is a total function). -/
theorem clean_text_empty_and_none :
    clean_text_py (PyInput.str "") = "" ∧ clean_text_py PyInput.noneV = "None" := by
  decide

/- ===================== Claims: Search (C4) ===================== -/

/-- C4 counterexample: a backend distance of `-1` yields similarity `2`,
which lies outside `[0, 1]`. -/
theorem search_similarity_counterexample :
    search [(1 : ℚ)] (.ok [⟨none, some (-1), none⟩]) =
      .ok [{ text := "", similarity := 2, id := "", chunk_index := -1 }] ∧
    ¬ ((2 : ℚ) ≤ 1) := by
  constructor
  · simp [search, processMatch, SearchResult.mk.injEq]
    norm_num
  · norm_num

/-- C4 amended: `search` maps each backend match to a result whose
similarity is `max(0, 1 - d)` for the match's distance `d` (so `d = 1/5`
yields `4/5` and `d = 3/2` yields `0`); every similarity is nonnegative, and
lies in `[0, 1]` whenever the backend distance is nonnegative. -/
theorem search_similarity_clamped :
    (∀ (q : List ℚ) (ms : List MatchRec), q ≠ [] →
        search q (.ok ms) = .ok (ms.map processMatch)) ∧
    (∀ m : MatchRec,
        (processMatch m).similarity = max 0 (1 - m.distance.getD 1) ∧
        0 ≤ (processMatch m).similarity ∧
        (0 ≤ m.distance.getD 1 → (processMatch m).similarity ≤ 1)) ∧
    (processMatch ⟨none, some (1/5), none⟩).similarity = 4/5 ∧
    (processMatch ⟨none, some (3/2), none⟩).similarity = 0 := by
  refine ⟨?_, ?_, ?_, ?_⟩
  · intro q ms hq
    cases q with
    | nil => exact absurd rfl hq
    | cons a t => rfl
  · intro m
    refine ⟨rfl, le_max_left 0 _, fun hd => ?_⟩
    exact max_le (by norm_num) (by linarith)
  · norm_num [processMatch]
  · norm_num [processMatch]

/-- Witness for C4 amended, at a nonempty query, the empty match list, and a
match with distance `1/2`. -/
theorem search_similarity_clamped_witness :
    search [(1 : ℚ)] (.ok ([] : List MatchRec)) = .ok [] ∧
    (processMatch ⟨none, some (1/2), none⟩).similarity ≤ 1 :=
  ⟨search_similarity_clamped.1 [1] [] (by simp),
   (search_similarity_clamped.2.1 ⟨none, some (1/2), none⟩).2.2 (by norm_num)⟩

/- ===================== Claims: Index Manager (C3, C6) ===================== -/

/-- C3 counterexample: with a client whose create call fails, the operation
still issues the create call and returns normally — the outer bare
`except: pass` suppresses the create failure instead of propagating it. -/
theorem create_failure_suppressed_counterexample :
    (createFailClient.createIndex () "test-index" 3).2 = .error "create failed" ∧
    (create_index_if_needed createFailClient () "test-index" 3).2.1 =
      [Call.list, Call.create "test-index" 3] ∧
    (create_index_if_needed createFailClient () "test-index" 3).2.2 = none := by
  exact ⟨rfl, rfl, rfl⟩

/-- C3 amended: failures of the list-indexes, pre-emptive delete-index and
create-index calls are all suppressed: for every client the operation
returns normally (no exception reaches the caller), and the outcome of the
delete call never influences the result. -/
theorem create_index_never_raises {σ E : Type} (cl : ClientM σ E) (s : σ)
    (n : String) (d : Nat) :
    (create_index_if_needed cl s n d).2.2 = none ∧
    ∀ f : σ → String → Except E Unit,
      create_index_if_needed
        { cl with deleteIndex := fun s' n' => ((cl.deleteIndex s' n').1, f s' n') } s n d =
      create_index_if_needed cl s n d := by
  refine ⟨rfl, fun f => rfl⟩

/-- C6: against an idealized backend, a first ensure-index call on a bucket
without the index performs one create; the second call with the same name
and dimension performs no create and no delete; a further call with a
changed dimension performs one delete followed by one create. -/
theorem ensure_index_idempotent (s₀ : List IndexInfo) (n : String) (d d₂ : Nat)
    (h0 : lookupDict s₀ n = none) (hd : d₂ ≠ d) :
    (create_index_if_needed idealClient s₀ n d).2.1 = [Call.list, Call.create n d] ∧
    (create_index_if_needed idealClient
        (create_index_if_needed idealClient s₀ n d).1 n d).2.1 = [Call.list] ∧
    (create_index_if_needed idealClient
        (create_index_if_needed idealClient
          (create_index_if_needed idealClient s₀ n d).1 n d).1 n d₂).2.1 =
      [Call.list, Call.delete n, Call.create n d₂] := by
  have h1 : create_index_if_needed idealClient s₀ n d =
      (s₀ ++ [⟨n, some d⟩], [Call.list, Call.create n d], none) := by
    simp [create_index_if_needed, create_index_run, idealClient, h0]
  have hlook : lookupDict (s₀ ++ [⟨n, some d⟩]) n = some ⟨n, some d⟩ :=
    lookupDict_append_self s₀ n ⟨n, some d⟩ rfl
  have h2 : create_index_if_needed idealClient (s₀ ++ [⟨n, some d⟩]) n d =
      (s₀ ++ [⟨n, some d⟩], [Call.list], none) := by
    simp [create_index_if_needed, create_index_run, idealClient, hlook]
  have h3 : (create_index_if_needed idealClient (s₀ ++ [⟨n, some d⟩]) n d₂).2.1 =
      [Call.list, Call.delete n, Call.create n d₂] := by
    simp [create_index_if_needed, create_index_run, idealClient, hlook, Ne.symm hd]
  rw [h1]
  refine ⟨rfl, ?_, ?_⟩
  · rw [h2]
  · rw [h2]
    exact h3

/-- Witness for C6 at the empty bucket, name `"test-index"`, dimensions `3`
then `4`. -/
theorem ensure_index_idempotent_witness :
    (create_index_if_needed idealClient
        (create_index_if_needed idealClient [] "test-index" 3).1 "test-index" 3).2.1 =
      [Call.list] :=
  (ensure_index_idempotent [] "test-index" 3 4 rfl (by decide)).2.1

/- ===================== Claims: Upload (C5, C9, C10) ===================== -/

/-- C5: Upload partitions the record list into consecutive groups of at most
400 records, submitted in input order (their concatenation is the record
list), and for exactly 1000 chunk/embedding pairs it makes exactly 3 batch
writes of 400, 400 and 200 records. -/
theorem upload_batches_spec (h : String → Int) (c : List String) (e : List (List ℚ)) :
    (upload_vectors h c e).flatten = makeVectors h c e ∧
    (∀ b ∈ upload_vectors h c e, b.length ≤ 400 ∧ b ≠ []) ∧
    (c.length = 1000 → e.length = 1000 →
      (upload_vectors h c e).map List.length = [400, 400, 200]) := by
  refine ⟨upload_vectors_join h c e, ?_, ?_⟩
  · intro b hb
    rw [upload_vectors] at hb
    by_cases hc : c.isEmpty || e.isEmpty
    · rw [if_pos hc] at hb
      simp at hb
    · rw [if_neg hc] at hb
      exact sliceBatches_mem _ _ _ _ (by norm_num) hb
  · intro hc he
    have hcne : c.isEmpty = false := by
      rw [List.isEmpty_eq_false_iff_exists_mem]
      cases c with
      | nil => simp at hc
      | cons a t => exact ⟨a, by simp⟩
    have hene : e.isEmpty = false := by
      rw [List.isEmpty_eq_false_iff_exists_mem]
      cases e with
      | nil => simp at he
      | cons a t => exact ⟨a, by simp⟩
    rw [upload_vectors, if_neg (by rw [hcne, hene]; decide)]
    rw [sliceBatches_map_length, makeVectors_length, hc, he]
    decide

/-- Witness for C5: a singleton upload produces one batch of one record, and
1000 replicated chunk/embedding pairs produce batches of 400, 400, 200. -/
theorem upload_batches_spec_witness :
    (([⟨mkKey 0 0, [], "", 0⟩] : List VectorRecord).length ≤ 400 ∧
      ([⟨mkKey 0 0, [], "", 0⟩] : List VectorRecord) ≠ []) ∧
    (upload_vectors (fun _ => 0) (List.replicate 1000 "x") (List.replicate 1000 [])).map
      List.length = [400, 400, 200] :=
  ⟨(upload_batches_spec (fun _ => 0) [""] [[]]).2.1 [⟨mkKey 0 0, [], "", 0⟩] (by decide),
   (upload_batches_spec (fun _ => 0) (List.replicate 1000 "x") (List.replicate 1000 [])).2.2
     (by rw [List.length_replicate]) (by rw [List.length_replicate])⟩

/-- C9: with both lists non-empty but of unequal lengths, Upload does not
fail and persists exactly `min` of the two lengths many records, pairing
chunks and embeddings by position. -/
theorem upload_unequal_lengths (h : String → Int) (c : List String) (e : List (List ℚ))
    (hc : c ≠ []) (he : e ≠ []) :
    (upload_vectors h c e).flatten.length = min c.length e.length ∧
    ∀ (i : Nat) (ci : String) (ei : List ℚ), c.get? i = some ci → e.get? i = some ei →
      (upload_vectors h c e).flatten.get? i =
        some { key := mkKey i ((h ci).natAbs % 100000), data := ei, text := ci,
               chunk_index := i } := by
  rw [upload_vectors_join]
  refine ⟨makeVectors_length h c e, ?_⟩
  intro i ci ei hci hei
  have hzip : (c.zip e).get? i = some (ci, ei) :=
    (List.get?_zip_eq_some c e (ci, ei) i).mpr ⟨hci, hei⟩
  rw [makeVectors, List.get?_map, List.get?_enum, hzip]
  rfl

/-- Witness for C9 at two chunks and one embedding: one record is written,
pairing the first chunk with the embedding. -/
theorem upload_unequal_lengths_witness :
    (upload_vectors (fun _ => 0) ["a", "b"] [[]]).flatten.length = 1 ∧
    (upload_vectors (fun _ => 0) ["a", "b"] [[]]).flatten.get? 0 =
      some { key := mkKey 0 0, data := [], text := "a", chunk_index := 0 } := by
  have h := upload_unequal_lengths (fun _ => 0) ["a", "b"] [[]] (by decide) (by decide)
  exact ⟨h.1, h.2 0 "a" [] rfl rfl⟩

/-- C10: within a single Upload call all generated record keys are pairwise
distinct, for every content-hash function (hence even under hash collisions
or identical chunk texts), because each key embeds the chunk's position. -/
theorem upload_keys_nodup (h : String → Int) (c : List String) (e : List (List ℚ)) :
    ((upload_vectors h c e).flatten.map VectorRecord.key).Nodup := by
  rw [upload_vectors_join]
  have hmap : (makeVectors h c e).map VectorRecord.key =
      (c.zip e).enum.map (fun p => mkKey p.1 ((h p.2.1).natAbs % 100000)) := by
    rw [makeVectors, List.map_map]
    rfl
  rw [hmap]
  have hfstnodup : ((c.zip e).enum.map Prod.fst).Nodup := by
    rw [List.enum_map_fst]
    exact List.nodup_range _
  have henum : (c.zip e).enum.Nodup := List.Nodup.of_map Prod.fst hfstnodup
  refine List.Nodup.map_on ?_ henum
  intro x hx y hy hxy
  exact List.inj_on_of_nodup_map hfstnodup hx hy (mkKey_inj_left hxy)

/- ===================== Claim C1: Normalizer output form ===================== -/

/-- C1 counterexample: for the input `"k":"@"` the JSON key/value alternative
captures the value `@` and substitutes it back verbatim, so the output is
`@` — a character outside `[A-Za-z0-9 ]`. -/
theorem clean_text_charset_counterexample :
    clean_text "\"k\":\"@\"" = "@" ∧ '@' ∈ (clean_text "\"k\":\"@\"").data ∧
    '@'.isAlphanum = false ∧ '@' ≠ ' ' := by
  decide

/-- C1 amended: for every input, the Normalizer's output has no two
consecutive spaces and no leading or trailing whitespace; and every output
character is either a space or a character occurring in the input (so any
character outside `[A-Za-z0-9 ]` can only be one carried over from the
input, via the captured JSON-like value content). -/
theorem clean_text_normal_form (s : String) :
    List.Chain' (fun a b => ¬(a = ' ' ∧ b = ' ')) (clean_text s).data ∧
    (∀ ch ∈ (clean_text s).data, ch = ' ' ∨ ch ∈ s.data) ∧
    (∀ ch, (clean_text s).data.head? = some ch → isPySpace ch = false) ∧
    (∀ ch, (clean_text s).data.getLast? = some ch → isPySpace ch = false) := by
  have hdata : (clean_text s).data = pyStrip (collapseWs (subClean s.data)) := rfl
  have himp : ∀ (l : List Char), List.Chain' (fun a b => ¬(a = ' ' ∧ b = ' ')) l →
      List.Chain' (flip (fun a b => ¬(a = ' ' ∧ b = ' '))) l := by
    intro l hl
    exact hl.imp (fun a b hab hc => hab ⟨hc.2, hc.1⟩)
  refine ⟨?_, ?_, ?_, ?_⟩
  · rw [hdata, pyStrip]
    apply List.chain'_reverse.mpr
    apply himp
    apply List.Chain'.suffix ?_ (List.dropWhile_suffix _)
    apply List.chain'_reverse.mpr
    apply himp
    exact List.Chain'.suffix (collapseAux_chain (subClean s.data) false)
      (List.dropWhile_suffix _)
  · intro ch hch
    rw [hdata] at hch
    have h1 := pyStrip_sub _ ch hch
    rcases collapseAux_sub (subClean s.data) false ch h1 with h | h
    · exact Or.inl h
    · rcases subCleanFuel_sub (s.data.length) (s.data) ch h with h2 | h2
      · exact Or.inl h2
      · exact Or.inr h2
  · intro ch hch
    rw [hdata, pyStrip, List.head?_reverse] at hch
    have hne : List.dropWhile isPySpace
        ((List.dropWhile isPySpace (collapseWs (subClean s.data))).reverse) ≠ [] := by
      intro he
      rw [he] at hch
      simp at hch
    rw [getLast?_dropWhile_of_ne_nil _ _ hne, List.getLast?_reverse] at hch
    exact dropWhile_head_not _ _ _ hch
  · intro ch hch
    rw [hdata, pyStrip, List.getLast?_reverse] at hch
    exact dropWhile_head_not _ _ _ hch

/-- Witness for C1 amended at the input `" a  b! "`, whose normal form is
`"a b"`: the character `b` of the output occurs in the input, the head `a`
and the last character `b` are not whitespace. -/
theorem clean_text_normal_form_witness :
    ('b' = ' ' ∨ 'b' ∈ " a  b! ".data) ∧ isPySpace 'a' = false ∧ isPySpace 'b' = false :=
  ⟨(clean_text_normal_form " a  b! ").2.1 'b' (by decide),
   (clean_text_normal_form " a  b! ").2.2.1 'a' (by decide),
   (clean_text_normal_form " a  b! ").2.2.2 'b' (by decide)⟩

end AwsVectorStore
